import Mathlib

/-!
Verification of the `invenlore/core` migration subsystem (package `migrator`):
the migration descriptor set (`ValidateAndSort`, `TargetVersion`), the
lease-based `Locker` (`TryAcquire`), the duplicate-key error classifiers
(`IsDuplicateKey`, `IsMongoDuplicateKeyError`), and the migration `Manager`
(`Run`, `runAsLeader`, `waitForTarget`).

The Go code is shallowly embedded: pure list computations become Lean
functions; every database call or migration callback is an effect whose
outcome is drawn from an explicit environment value, and concurrent
interleavings (the lease-renewal goroutine against the sequential migration
loop) are resolved by an explicit schedule parameter.  `int64` versions are
modelled as `Int` (no arithmetic that could overflow occurs in this code:
versions are only compared), timestamps as `Nat`.
-/

/-- Decidable equality for `Except`, used to decide equations about the
embedded fallible operations on concrete inputs. -/
def exceptDecEq {α β : Type} [DecidableEq α] [DecidableEq β] : DecidableEq (Except α β) := fun a b =>
  match a, b with
  | .ok x, .ok y =>
    if h : x = y then isTrue (by rw [h]) else isFalse (by intro he; cases he; exact h rfl)
  | .error x, .error y =>
    if h : x = y then isTrue (by rw [h]) else isFalse (by intro he; cases he; exact h rfl)
  | .ok _, .error _ => isFalse (by intro h; cases h)
  | .error _, .ok _ => isFalse (by intro h; cases h)

instance {α β : Type} [DecidableEq α] [DecidableEq β] : DecidableEq (Except α β) := exceptDecEq

namespace Migrator

/-- Validation errors produced by `ValidateAndSort` in `pkg/migrator/types.go`;
each constructor carries the data interpolated into the Go `fmt.Errorf` call. -/
inductive ValidationError where
  | nonPositiveVersion (version : Int) (name : String)
  | emptyName (version : Int)
  | nilUp (version : Int) (name : String)
  | duplicateVersion (version : Int)
deriving DecidableEq, Repr

/-- Text of a validation error, mirroring the `fmt.Errorf` format strings of
`ValidateAndSort`. -/
def validationMsg : ValidationError → String
  | .nonPositiveVersion v n => s!"migration version must be > 0, got {v} ({n})"
  | .emptyName v => s!"migration name is empty for version {v}"
  | .nilUp v n => s!"migration Up is nil for version {v} ({n})"
  | .duplicateVersion v => s!"duplicate migration version {v}"

/-- Model of a non-nil Go `error` value as it is observed by this code: the
mongo driver error shapes that `errors.As` can type-match, validation errors,
and any other error (context errors, network errors, ...) identified only by
its message.  `msg` plays the role of the Go `Error()` string. -/
inductive Err where
  | writeException (codes : List Int) (msg : String)
  | bulkWriteException (codes : List Int) (msg : String)
  | commandError (code : Int) (msg : String)
  | validation (v : ValidationError)
  | other (msg : String)
deriving DecidableEq, Repr

/-- Result of Go `err.Error()` for the modelled error values. -/
def Err.text : Err → String
  | .writeException _ m => m
  | .bulkWriteException _ m => m
  | .commandError _ m => m
  | .validation v => validationMsg v
  | .other m => m

/-- Model of Go `strings.Contains`. -/
def strContains (s pat : String) : Bool :=
  (List.range (s.toList.length + 1)).any (fun i => pat.toList.isPrefixOf (s.toList.drop i))

/-- Embedding of `IsDuplicateKey` (`src/unnamed/part_004`): a bare
`errors.As` match against `mongo.WriteException` looking for write-error code
11000.  A `nil` error (`none`) matches nothing, since `errors.As` returns
false on a nil error. -/
def IsDuplicateKey : Option Err → Bool
  | some (.writeException codes _) => codes.any (· == 11000)
  | _ => false

/-- Embedding of `IsMongoDuplicateKeyError` (`pkg/migrator/helpers.go`):
nil check, then `WriteException`, `BulkWriteException` and `CommandError`
code-11000 checks, then the `strings.Contains(err.Error(), "E11000")`
fallback. -/
def IsMongoDuplicateKeyError : Option Err → Bool
  | none => false
  | some e =>
    (match e with
     | .writeException codes _ => codes.any (· == 11000)
     | _ => false) ||
    (match e with
     | .bulkWriteException codes _ => codes.any (· == 11000)
     | _ => false) ||
    (match e with
     | .commandError code _ => code == 11000
     | _ => false) ||
    strContains e.text "E11000"

/-- Embedding of the `Migration` descriptor (`pkg/migrator/types.go`).  The
`Up` callback is a function value in Go; the only property of it that the
validated descriptor set depends on is whether it is nil, kept here as
`upNil`.  Its runtime outcome when invoked is part of the leader-run
environment below. -/
structure Migration where
  version : Int
  name : String
  upNil : Bool
deriving DecidableEq, Repr

/-- Embedding of the validation loop body of `ValidateAndSort`: walk the list
in order carrying the set (`seen`) of versions already encountered, returning
the first violation (version ≤ 0, then empty name, then nil `Up`, then
duplicate version). -/
def validateLoop : List Migration → List Int → Option ValidationError
  | [], _ => none
  | m :: rest, seen =>
    if m.version ≤ 0 then some (.nonPositiveVersion m.version m.name)
    else if m.name = "" then some (.emptyName m.version)
    else if m.upNil = true then some (.nilUp m.version m.name)
    else if m.version ∈ seen then some (.duplicateVersion m.version)
    else validateLoop rest (m.version :: seen)

/-- Ordering by version used by the final
`sort.Slice(list, func(i, j) { return list[i].Version < list[j].Version })`
of `ValidateAndSort`. -/
def byVersion (a b : Migration) : Prop := a.version ≤ b.version

instance : DecidableRel byVersion := fun a b => Int.decLe a.version b.version

instance : IsTotal Migration byVersion := ⟨fun a b => Int.le_total a.version b.version⟩

instance : IsTrans Migration byVersion := ⟨fun _ _ _ h h' => le_trans h h'⟩

/-- Embedding of the sorting step of `ValidateAndSort`.  `sort.Slice` is an
unspecified (unstable) comparison sort; since versions are pairwise distinct
whenever this step runs, every comparison sort by version produces the same
list, so a concrete sort is a faithful embedding. -/
def sortByVersion (list : List Migration) : List Migration :=
  list.insertionSort byVersion

/-- Embedding of `ValidateAndSort` (`pkg/migrator/types.go`): empty input
returns `(nil, nil)`; otherwise the validation loop runs, and on success the
list is returned sorted ascending by version. -/
def ValidateAndSort (list : List Migration) : Except ValidationError (List Migration) :=
  if list.isEmpty then .ok []
  else
    match validateLoop list [] with
    | some e => .error e
    | none => .ok (sortByVersion list)

/-- Embedding of `TargetVersion` (`pkg/migrator/types.go`): 0 for an empty
list, otherwise a running maximum starting from `list[0].Version` over the
whole list. -/
def TargetVersion : List Migration → Int
  | [] => 0
  | m :: rest =>
    (m :: rest).foldl (fun mx x => if x.version > mx then x.version else mx) m.version

example : ValidateAndSort [] = .ok [] := by decide
example : ValidateAndSort [⟨2, "b", false⟩, ⟨1, "a", false⟩] = .ok [⟨1, "a", false⟩, ⟨2, "b", false⟩] := by decide
example : ValidateAndSort [⟨2, "b", false⟩, ⟨2, "a", false⟩] = .error (.duplicateVersion 2) := by decide
example : ValidateAndSort [⟨0, "b", false⟩, ⟨2, "a", false⟩] = .error (.nonPositiveVersion 0 "b") := by decide
example : TargetVersion [⟨2, "b", false⟩, ⟨7, "a", false⟩, ⟨3, "c", false⟩] = 7 := by decide
example : IsDuplicateKey (some (.writeException [121, 11000] "dup")) = true := by decide
example : IsMongoDuplicateKeyError (some (.other "write failed: E11000 duplicate key")) = true := by decide
example : IsMongoDuplicateKeyError (some (.commandError 11000 "dup")) = true := by decide
example : IsDuplicateKey (some (.commandError 11000 "dup")) = false := by decide

/-- Embedding of the persisted lock document (`lockDoc` in
`pkg/migrator/lock.go`); timestamps are modelled as `Nat`. -/
structure lockDoc where
  id : String
  owner : String
  leaseUntil : Nat
  updatedAt : Nat
deriving DecidableEq, Repr

/-- Embedding of the `Locker` configuration (`pkg/migrator/lock.go`): the
collection handle is external, the lock key, owner identity and lease
duration are the data the protocol depends on. -/
structure Locker where
  lockKey : String
  owner : String
  leaseFor : Nat
deriving DecidableEq, Repr

/-- Outcome of the `FindOneAndUpdate(..).Decode(&out)` call in `TryAcquire`:
either a post-update document, `mongo.ErrNoDocuments` (no document matched
the conditional filter), or any other driver error. -/
inductive FindUpdateOutcome where
  | doc (post : lockDoc)
  | noDocuments
  | dbError (e : Err)
deriving DecidableEq, Repr

/-- Outcome of the fallback `InsertOne` call in `TryAcquire`. -/
inductive InsertOutcome where
  | ok
  | fail (e : Err)
deriving DecidableEq, Repr

/-- Environment of one `TryAcquire` call: the outcomes the database returns
for its two operations. -/
structure TryAcquireEnv where
  findUpdate : FindUpdateOutcome
  insert : InsertOutcome
deriving DecidableEq, Repr

/-- Document inserted by the fallback branch of `TryAcquire` when no document
matched: `lockDoc{ID: l.lockKey, Owner: l.owner, LeaseUntil: leaseUntil, UpdatedAt: now}`
with `leaseUntil = now + l.leaseFor`. -/
def insertedLockDoc (l : Locker) (now : Nat) : lockDoc :=
  { id := l.lockKey, owner := l.owner, leaseUntil := now + l.leaseFor, updatedAt := now }

/-- Embedding of `Locker.TryAcquire` (`pkg/migrator/lock.go`): decode the
post-update document and test its owner; on `ErrNoDocuments` insert a fresh
document, absorbing a duplicate-key race as `(false, nil)`; propagate every
other error with `acquired = false`. -/
def TryAcquire (l : Locker) (env : TryAcquireEnv) : Bool × Option Err :=
  match env.findUpdate with
  | .doc post => (post.owner == l.owner, none)
  | .dbError e => (false, some e)
  | .noDocuments =>
    match env.insert with
    | .ok => (true, none)
    | .fail insErr =>
      if IsMongoDuplicateKeyError (some insErr) then (false, none)
      else (false, some insErr)

/-- Observable events of one leader run (`Manager.runAsLeader`):
`check v` is the `isApplied` read for version `v`, `apply v` an invocation of
the migration's `Up` callback, `insert v` a `recordApplied` insert, and
`renewOk`/`renewFail` the outcomes of the `Renew` calls made by the renewal
goroutine. -/
inductive Ev where
  | check (v : Int)
  | apply (v : Int)
  | insert (v : Int)
  | renewOk
  | renewFail (e : Err)
deriving DecidableEq, Repr

/-- Environment of one iteration of the migration loop: the outcome of the
`isApplied` read, of the migration's `Up` callback if invoked, and of the
`recordApplied` insert if reached (`none` = success). -/
structure MigEnv where
  isApplied : Except Err Bool
  applyRes : Option Err
  insertRes : Option Err
deriving DecidableEq, Repr

/-- State of the renewal goroutine of `runAsLeader`: still looping, or exited
after a failed `Renew` whose error sits in the buffered `renewErr` channel. -/
inductive RenewState where
  | running
  | stopped (e : Err)
deriving DecidableEq, Repr

/-- Renewal goroutine of `runAsLeader` firing a scheduled burst of ticker
ticks: while running, each tick calls `Renew`; a failing call sends its error
on `renewErr` and exits the goroutine, so later scheduled ticks never
happen. -/
def fireTicks : RenewState → List (Option Err) → RenewState × List Ev
  | s, [] => (s, [])
  | .stopped e, _ => (.stopped e, [])
  | .running, none :: rest =>
    ((fireTicks .running rest).1, .renewOk :: (fireTicks .running rest).2)
  | .running, some e :: _ => (.stopped e, [.renewFail e])

/-- Migration loop of `runAsLeader` interleaved with the renewal goroutine.
Each element carries the renewal ticks scheduled to fire before that
iteration, the migration, and the iteration's database outcomes.  Returns the
event trace, the loop's own terminal error (`none` when it ran to
completion), and the renewal goroutine's state when the loop ends.  The loop
itself never consults the renewal goroutine: it reads `renewErr` only after
deciding to stop. -/
def leaderLoopT : RenewState → List (List (Option Err) × Migration × MigEnv) →
    List Ev × Option Err × RenewState
  | rs, [] => ([], none, rs)
  | rs, (ticks, mig, env) :: rest =>
    let fired := fireTicks rs ticks
    match env.isApplied with
    | .error e => (fired.2 ++ [.check mig.version], some e, fired.1)
    | .ok true =>
      (fired.2 ++ .check mig.version :: (leaderLoopT fired.1 rest).1,
       (leaderLoopT fired.1 rest).2.1, (leaderLoopT fired.1 rest).2.2)
    | .ok false =>
      match env.applyRes with
      | some e => (fired.2 ++ [.check mig.version, .apply mig.version], some e, fired.1)
      | none =>
        match env.insertRes with
        | some e =>
          if IsMongoDuplicateKeyError (some e) then
            (fired.2 ++ .check mig.version :: .apply mig.version :: .insert mig.version ::
               (leaderLoopT fired.1 rest).1,
             (leaderLoopT fired.1 rest).2.1, (leaderLoopT fired.1 rest).2.2)
          else
            (fired.2 ++ [.check mig.version, .apply mig.version, .insert mig.version], some e, fired.1)
        | none =>
          (fired.2 ++ .check mig.version :: .apply mig.version :: .insert mig.version ::
             (leaderLoopT fired.1 rest).1,
           (leaderLoopT fired.1 rest).2.1, (leaderLoopT fired.1 rest).2.2)

/-- Embedding of `Manager.runAsLeader` over an explicit interleaving: run the
migration loop; on a loop error, `cancel()` and drain `renewErr`, returning
the loop's error; on completion, `cancel()` after the trailing scheduled
ticks fire, and return whatever the renewal goroutine left in `renewErr`
(its first `Renew` error, or nil).  The deferred best-effort `Release` is not
modelled: its result is discarded by the code and affects neither the trace
events above nor the returned error. -/
def runAsLeaderT (steps : List (List (Option Err) × Migration × MigEnv))
    (trailing : List (Option Err)) : List Ev × Option Err :=
  match (leaderLoopT .running steps).2.1 with
  | some e => ((leaderLoopT .running steps).1, some e)
  | none =>
    ((leaderLoopT .running steps).1 ++
       (fireTicks (leaderLoopT .running steps).2.2 trailing).2,
     match (fireTicks (leaderLoopT .running steps).2.2 trailing).1 with
     | .stopped e => some e
     | .running => none)

/-- Tick-free migration loop of `runAsLeader`: the sequential loop body alone,
with its event trace and terminal error. -/
def migrationLoop : List (Migration × MigEnv) → List Ev × Option Err
  | [] => ([], none)
  | (mig, env) :: rest =>
    match env.isApplied with
    | .error e => ([.check mig.version], some e)
    | .ok true =>
      (.check mig.version :: (migrationLoop rest).1, (migrationLoop rest).2)
    | .ok false =>
      match env.applyRes with
      | some e => ([.check mig.version, .apply mig.version], some e)
      | none =>
        match env.insertRes with
        | some e =>
          if IsMongoDuplicateKeyError (some e) then
            (.check mig.version :: .apply mig.version :: .insert mig.version ::
               (migrationLoop rest).1, (migrationLoop rest).2)
          else
            ([.check mig.version, .apply mig.version, .insert mig.version], some e)
        | none =>
          (.check mig.version :: .apply mig.version :: .insert mig.version ::
             (migrationLoop rest).1, (migrationLoop rest).2)

/-- Per-run environment of `runAsLeader`: for each position in the (sorted)
migration list, the renewal ticks scheduled before that iteration and the
iteration's database outcomes, plus the ticks scheduled after the loop and
before the goroutine observes cancellation. -/
structure LeaderEnv where
  ticks : Nat → List (Option Err)
  env : Nat → MigEnv
  trailing : List (Option Err)

/-- Schedule of `runAsLeader` on a concrete migration list: each migration is
paired with its scheduled ticks and outcomes by position. -/
def leaderSteps (le : LeaderEnv) (list : List Migration) :
    List (List (Option Err) × Migration × MigEnv) :=
  list.enum.map (fun p => (le.ticks p.1, p.2, le.env p.1))

/-- Embedding of `Manager.runAsLeader` on a migration list under a leader
environment. -/
def runAsLeader (list : List Migration) (le : LeaderEnv) : List Ev × Option Err :=
  runAsLeaderT (leaderSteps le list) le.trailing

/-- Configuration fields of `ManagerConfig` that the `Run` control flow
depends on (`pkg/recovery/recovery_interceptors.go`, package `migrator`).
The durations and logger only shape timeouts and logging, which the
environment model absorbs. -/
structure ManagerConfig where
  FailFast : Bool
  WaitForLeader : Bool
deriving DecidableEq, Repr

/-- In-memory readiness state of the `Manager`: the `ready` atomic boolean
and the `last` atomic error-text value. -/
structure ManagerState where
  ready : Bool
  last : String
deriving DecidableEq, Repr

/-- State stored by `NewManager`: `m.ready.Store(false); m.last.Store("")`. -/
def NewManagerState : ManagerState := { ready := false, last := "" }

/-- Embedding of `Manager.Ready`. -/
def Ready (st : ManagerState) : Bool := st.ready

/-- Embedding of `Manager.LastError`. -/
def LastError (st : ManagerState) : String := st.last

/-- Embedding of `Manager.setErr`: store the error text, or clear it on
nil. -/
def setErr (st : ManagerState) : Option Err → ManagerState
  | none => { st with last := "" }
  | some e => { st with last := e.text }

/-- Success transition of `Run`: `m.ready.Store(true); m.setErr(nil)`. -/
def markReady (st : ManagerState) : ManagerState :=
  setErr { st with ready := true } none

/-- Failure transition of `Run`: `m.setErr(err)` followed by
`if m.cfg.FailFast { return err }; return nil`. -/
def failStep (cfg : ManagerConfig) (st : ManagerState) (e : Err) :
    ManagerState × Option Err :=
  (setErr st (some e), if cfg.FailFast then some e else none)

/-- Environment of one tick of the follower loop `waitForTarget`: the
`appliedVersion` read, the `TryAcquire` outcomes should the tick reach them,
and the leader environment should the takeover succeed. -/
structure TickEnv where
  applied : Except Err Int
  acq : TryAcquireEnv
  lenv : LeaderEnv

/-- One `select` round of `waitForTarget`: either `ctx.Done()` fires
(carrying the value of `ctx.Err()`) or the poll ticker fires with that
tick's environment. -/
inductive WaitStep where
  | cancel (e : Err)
  | tick (t : TickEnv)

/-- Embedding of `Manager.waitForTarget` over a schedule of select rounds:
cancellation returns `ctx.Err()`; a tick re-reads the applied version
(errors are skipped), succeeds once it reaches the target, and only
otherwise attempts `TryAcquire` (errors and non-acquisition are skipped;
acquisition runs `runAsLeader` and returns its result).  The outer `none`
means the schedule ran out while the loop was still polling. -/
def waitForTarget (l : Locker) (target : Int) (sorted : List Migration) :
    List WaitStep → Option (Option Err)
  | [] => none
  | .cancel e :: _ => some (some e)
  | .tick t :: rest =>
    match t.applied with
    | .error _ => waitForTarget l target sorted rest
    | .ok a =>
      if a ≥ target then some none
      else
        match TryAcquire l t.acq with
        | (_, some _) => waitForTarget l target sorted rest
        | (true, none) => some (runAsLeader sorted t.lenv).2
        | (false, none) => waitForTarget l target sorted rest

/-- Environment of one `Run` call: outcomes of `ensureInternalIndexes`, of
the fast-path `appliedVersion` read, of the `tryAcquireWithTimeout` call
(modelled through `TryAcquire`; the debug-logging variant differs only in
observability), the leader environment, and the follower-loop schedule. -/
structure RunEnv where
  ensure : Option Err
  appliedV : Except Err Int
  acq : TryAcquireEnv
  leader : LeaderEnv
  waitSteps : List WaitStep

/-- Embedding of `Manager.Run` (`pkg/recovery/recovery_interceptors.go`,
package `migrator`): validate, short-circuit an empty target, ensure the
unique index, fast-path on the applied version, try to acquire the lock,
then run as leader or (optionally) wait as follower.  Every error is stored
via `setErr` and returned only under `FailFast`; the result is `none` when
the follower loop's schedule ran out while still polling. -/
def Run (l : Locker) (cfg : ManagerConfig) (st : ManagerState) (list : List Migration)
    (env : RunEnv) : Option (ManagerState × Option Err) :=
  match ValidateAndSort list with
  | .error ve => some (failStep cfg st (.validation ve))
  | .ok sorted =>
    if TargetVersion sorted = 0 then some (markReady st, none)
    else
      match env.ensure with
      | some e => some (failStep cfg st e)
      | none =>
        if (match env.appliedV with
            | .ok a => decide (a ≥ TargetVersion sorted)
            | .error _ => false) then some (markReady st, none)
        else
          match TryAcquire l env.acq with
          | (_, some e) => some (failStep cfg st e)
          | (acquired, none) =>
            if acquired then
              match (runAsLeader sorted env.leader).2 with
              | none => some (markReady st, none)
              | some e => some (failStep cfg st e)
            else if !cfg.WaitForLeader then some (st, none)
            else
              match waitForTarget l (TargetVersion sorted) sorted env.waitSteps with
              | none => none
              | some (some e) => some (failStep cfg st e)
              | some none => some (markReady st, none)

/-! ## Supporting lemmas for `TargetVersion` -/

/-- Step function of the `TargetVersion` loop is the binary max on versions. -/
lemma targetStep_eq_max :
    (fun (mx : Int) (x : Migration) => if x.version > mx then x.version else mx) =
    (fun (mx : Int) (x : Migration) => max mx x.version) := by
  funext mx x
  by_cases h : x.version > mx
  · simp [h, max_eq_right (le_of_lt h)]
  · simp [h, max_eq_left (le_of_not_lt h)]

lemma le_foldl_vmax (l : List Migration) (a : Int) :
    a ≤ l.foldl (fun mx x => max mx x.version) a := by
  induction l generalizing a with
  | nil => simp
  | cons x xs ih =>
    simp only [List.foldl_cons]
    exact le_trans (le_max_left _ _) (ih _)

lemma mem_le_foldl_vmax {m : Migration} {l : List Migration} (hm : m ∈ l) (a : Int) :
    m.version ≤ l.foldl (fun mx x => max mx x.version) a := by
  induction l generalizing a with
  | nil => cases hm
  | cons x xs ih =>
    simp only [List.foldl_cons]
    rcases List.mem_cons.mp hm with h | h
    · subst h
      exact le_trans (le_max_right _ _) (le_foldl_vmax _ _)
    · exact ih h _

lemma foldl_vmax_cases (l : List Migration) (a : Int) :
    l.foldl (fun mx x => max mx x.version) a = a ∨
      ∃ m ∈ l, l.foldl (fun mx x => max mx x.version) a = m.version := by
  induction l generalizing a with
  | nil => exact Or.inl rfl
  | cons x xs ih =>
    simp only [List.foldl_cons]
    rcases ih (max a x.version) with h | ⟨m, hm, he⟩
    · rcases max_choice a x.version with hc | hc
      · exact Or.inl (by rw [h, hc])
      · exact Or.inr ⟨x, List.mem_cons_self _ _, by rw [h, hc]⟩
    · exact Or.inr ⟨m, List.mem_cons_of_mem _ hm, he⟩

lemma targetVersion_cons (m : Migration) (rest : List Migration) :
    TargetVersion (m :: rest) = (m :: rest).foldl (fun mx x => max mx x.version) m.version := by
  simp only [TargetVersion, targetStep_eq_max]

/-- C8: `TargetVersion` of the empty list is 0; of a non-empty list it is the
maximum version present (a version of some element that bounds all of them);
and it is invariant under permutation of the input. -/
theorem c8_targetVersion_max :
    TargetVersion [] = 0
  ∧ (∀ l : List Migration, l ≠ [] →
      (∃ m ∈ l, TargetVersion l = m.version) ∧ ∀ m ∈ l, m.version ≤ TargetVersion l)
  ∧ (∀ l₁ l₂ : List Migration, l₁.Perm l₂ → TargetVersion l₁ = TargetVersion l₂) := by
  have upper : ∀ (l : List Migration), ∀ m ∈ l, m.version ≤ TargetVersion l := by
    intro l m hm
    match l with
    | [] => cases hm
    | x :: xs =>
      rw [targetVersion_cons]
      exact mem_le_foldl_vmax hm _
  have mem : ∀ (l : List Migration), l ≠ [] → ∃ m ∈ l, TargetVersion l = m.version := by
    intro l hl
    match l with
    | [] => exact absurd rfl hl
    | x :: xs =>
      rw [targetVersion_cons]
      rcases foldl_vmax_cases (x :: xs) x.version with h | ⟨m, hm, he⟩
      · exact ⟨x, List.mem_cons_self _ _, h⟩
      · exact ⟨m, hm, he⟩
  refine ⟨rfl, fun l hl => ⟨mem l hl, upper l⟩, ?_⟩
  intro l₁ l₂ hp
  match l₁, hp with
  | [], hp => rw [← hp.nil_eq]
  | x :: xs, hp =>
    have h₂ : l₂ ≠ [] := by
      intro h
      subst h
      exact absurd hp.symm.nil_eq (by simp)
    obtain ⟨m₁, hm₁, he₁⟩ := mem (x :: xs) (by simp)
    obtain ⟨m₂, hm₂, he₂⟩ := mem l₂ h₂
    have le₁ : TargetVersion (x :: xs) ≤ TargetVersion l₂ := by
      rw [he₁]
      exact upper l₂ m₁ (hp.subset hm₁)
    have le₂ : TargetVersion l₂ ≤ TargetVersion (x :: xs) := by
      rw [he₂]
      exact upper (x :: xs) m₂ (hp.symm.subset hm₂)
    exact le_antisymm le₁ le₂

theorem c8_targetVersion_max_witness :
    TargetVersion [] = 0
  ∧ (∃ m ∈ [(⟨2, "a", false⟩ : Migration), ⟨7, "b", false⟩, ⟨3, "c", false⟩],
      TargetVersion [(⟨2, "a", false⟩ : Migration), ⟨7, "b", false⟩, ⟨3, "c", false⟩] = m.version)
  ∧ TargetVersion [(⟨2, "a", false⟩ : Migration), ⟨7, "b", false⟩, ⟨3, "c", false⟩] =
      TargetVersion [(⟨7, "b", false⟩ : Migration), ⟨3, "c", false⟩, ⟨2, "a", false⟩] :=
  ⟨c8_targetVersion_max.1,
   (c8_targetVersion_max.2.1 _ (by decide)).1,
   c8_targetVersion_max.2.2 _ _ (by decide)⟩

/-! ## C10: the duplicate-key classifiers -/

/-- C10: every error accepted by the narrow `IsDuplicateKey` is accepted by
`IsMongoDuplicateKeyError`; both reject a nil error; and the wider classifier
additionally accepts bulk-write errors with code 11000, command errors with
code 11000, and errors whose text contains "E11000". -/
theorem c10_isDuplicateKey_refinement :
    (∀ e : Option Err, IsDuplicateKey e = true → IsMongoDuplicateKeyError e = true)
  ∧ IsDuplicateKey none = false
  ∧ IsMongoDuplicateKeyError none = false
  ∧ (∀ codes msg, codes.any (· == 11000) = true →
      IsMongoDuplicateKeyError (some (.bulkWriteException codes msg)) = true)
  ∧ (∀ msg, IsMongoDuplicateKeyError (some (.commandError 11000 msg)) = true)
  ∧ (∀ e : Err, strContains e.text "E11000" = true →
      IsMongoDuplicateKeyError (some e) = true) := by
  refine ⟨?_, rfl, rfl, ?_, ?_, ?_⟩
  · intro e h
    match e with
    | none => exact absurd h (by simp [IsDuplicateKey])
    | some (.writeException codes msg) =>
      simp only [IsDuplicateKey] at h
      simp [IsMongoDuplicateKeyError, h]
    | some (.bulkWriteException _ _) => exact absurd h (by simp [IsDuplicateKey])
    | some (.commandError _ _) => exact absurd h (by simp [IsDuplicateKey])
    | some (.validation _) => exact absurd h (by simp [IsDuplicateKey])
    | some (.other _) => exact absurd h (by simp [IsDuplicateKey])
  · intro codes msg h
    simp [IsMongoDuplicateKeyError, h]
  · intro msg
    simp [IsMongoDuplicateKeyError]
  · intro e h
    simp [IsMongoDuplicateKeyError, h]

theorem c10_isDuplicateKey_refinement_witness :
    IsMongoDuplicateKeyError (some (.writeException [121, 11000] "write errors")) = true
  ∧ IsMongoDuplicateKeyError (some (.bulkWriteException [11000] "bulk")) = true
  ∧ IsMongoDuplicateKeyError (some (.other "insert: E11000 duplicate key error")) = true :=
  ⟨c10_isDuplicateKey_refinement.1 _ (by decide),
   c10_isDuplicateKey_refinement.2.2.2.1 _ "bulk" (by decide),
   c10_isDuplicateKey_refinement.2.2.2.2.2 _ (by decide)⟩

/-! ## C7: empty migration list -/

/-- C7: for every configuration, starting state and environment, `Run` on an
empty migration list marks the Manager ready with an empty last error and
returns nil; the result is a fixed value over all environments, so no
database outcome influences it (no database operation is performed). -/
theorem c7_run_empty_list (l : Locker) (cfg : ManagerConfig) (st : ManagerState)
    (env : RunEnv) :
    Run l cfg st [] env = some ({ ready := true, last := "" }, none)
  ∧ Ready { ready := true, last := "" } = true
  ∧ LastError { ready := true, last := "" } = "" :=
  ⟨rfl, rfl, rfl⟩

/-! ## C3: TryAcquire -/

/-- C3: `TryAcquire` reports `acquired = true` exactly when the post-update
document's owner is the caller (either the conditional update returned a
document owned by the caller, or the fallback insert — whose document carries
the caller as owner — succeeded); a duplicate-key failure of the fallback
insert yields `(false, nil)`; any other insert error and any update error is
returned with `acquired = false`. -/
theorem c3_tryAcquire_owner (l : Locker) (env : TryAcquireEnv) :
    ((TryAcquire l env).1 = true ↔
      (∃ post, env.findUpdate = .doc post ∧ post.owner = l.owner) ∨
      (env.findUpdate = .noDocuments ∧ env.insert = .ok))
  ∧ (∀ e, env.findUpdate = .noDocuments → env.insert = .fail e →
      IsMongoDuplicateKeyError (some e) = true → TryAcquire l env = (false, none))
  ∧ (∀ e, env.findUpdate = .noDocuments → env.insert = .fail e →
      IsMongoDuplicateKeyError (some e) = false → TryAcquire l env = (false, some e))
  ∧ (∀ e, env.findUpdate = .dbError e → TryAcquire l env = (false, some e))
  ∧ (∀ now, (insertedLockDoc l now).owner = l.owner) := by
  obtain ⟨fu, ins⟩ := env
  refine ⟨?_, ?_, ?_, ?_, fun _ => rfl⟩
  · cases fu with
    | doc post => simp [TryAcquire, beq_iff_eq]
    | dbError e => simp [TryAcquire]
    | noDocuments =>
      cases ins with
      | ok => simp [TryAcquire]
      | fail e =>
        by_cases h : IsMongoDuplicateKeyError (some e) = true
        · simp [TryAcquire, h]
        · simp [TryAcquire, h]
  · intro e hfu hins hdup
    cases hfu
    cases hins
    simp [TryAcquire, hdup]
  · intro e hfu hins hdup
    cases hfu
    cases hins
    simp [TryAcquire, hdup]
  · intro e hfu
    cases hfu
    simp [TryAcquire]

theorem c3_tryAcquire_owner_witness :
    TryAcquire ⟨"userservice:migrations", "host-aa", 30⟩
      ⟨.noDocuments, .fail (.writeException [11000] "E11000 duplicate key")⟩ = (false, none)
  ∧ (TryAcquire ⟨"userservice:migrations", "host-aa", 30⟩
      ⟨.doc ⟨"userservice:migrations", "host-bb", 95, 65⟩, .ok⟩).1 = false :=
  ⟨(c3_tryAcquire_owner _ _).2.1 _ rfl rfl (by decide),
   by
    have h := (c3_tryAcquire_owner ⟨"userservice:migrations", "host-aa", 30⟩
      ⟨.doc ⟨"userservice:migrations", "host-bb", 95, 65⟩, .ok⟩).1
    simp only [Bool.not_eq_true] at h ⊢
    by_contra hb
    simp only [Bool.not_eq_false] at hb
    rcases h.mp hb with ⟨post, hpost, howner⟩ | ⟨hfu, _⟩
    · cases hpost
      exact absurd howner (by decide)
    · cases hfu⟩

/-! ## C5: ValidateAndSort -/

/-- Specification-side classifier: the first violation committed by a
migration given the set of versions that precede it, in the claim's detection
order: version ≤ 0, then empty name, then missing apply function, then
duplicate version. -/
def migErrorV (seenV : List Int) (m : Migration) : Option ValidationError :=
  if m.version ≤ 0 then some (.nonPositiveVersion m.version m.name)
  else if m.name = "" then some (.emptyName m.version)
  else if m.upNil = true then some (.nilUp m.version m.name)
  else if m.version ∈ seenV then some (.duplicateVersion m.version)
  else none

/-- Violation committed by migration `m` when the migrations of `pre` precede
it in input order. -/
def migError (pre : List Migration) (m : Migration) : Option ValidationError :=
  migErrorV (pre.map (·.version)) m

lemma migErrorV_congr {A B : List Int} (h : ∀ v, v ∈ A ↔ v ∈ B) (m : Migration) :
    migErrorV A m = migErrorV B m := by
  unfold migErrorV
  by_cases h1 : m.version ≤ 0
  · simp [h1]
  · by_cases h2 : m.name = ""
    · simp [h1, h2]
    · by_cases h3 : m.upNil = true
      · simp [h1, h2, h3]
      · by_cases h4 : m.version ∈ A
        · simp [h1, h2, h3, h4, (h _).mp h4]
        · have h4' : m.version ∉ B := fun hb => h4 ((h _).mpr hb)
          simp [h1, h2, h3, h4, h4']

lemma validateLoop_cons (m : Migration) (rest : List Migration) (seen : List Int) :
    validateLoop (m :: rest) seen =
      match migErrorV seen m with
      | some e => some e
      | none => validateLoop rest (m.version :: seen) := by
  simp only [validateLoop, migErrorV]
  split_ifs <;> rfl

lemma validateLoop_some_iff (e : ValidationError) :
    ∀ (l done : List Migration) (seen : List Int),
      (∀ v, v ∈ seen ↔ v ∈ done.map (·.version)) →
      (validateLoop l seen = some e ↔
        ∃ pre m post, l = pre ++ m :: post ∧
          (∀ p₁ x p₂, pre = p₁ ++ x :: p₂ → migError (done ++ p₁) x = none) ∧
          migError (done ++ pre) m = some e) := by
  intro l
  induction l with
  | nil =>
    intro done seen hseen
    constructor
    · intro h
      cases h
    · rintro ⟨pre, m, post, h, -, -⟩
      exact absurd h (by simp)
  | cons m rest ih =>
    intro done seen hseen
    rw [validateLoop_cons]
    have hm : migErrorV seen m = migError (done ++ []) m := by
      rw [List.append_nil]
      exact migErrorV_congr hseen m
    cases hcase : migError (done ++ []) m with
    | some e' =>
      rw [hm, hcase]
      constructor
      · intro h
        injection h with h
        subst h
        exact ⟨[], m, rest, rfl, by rintro p₁ x p₂ hp; exact absurd hp (by simp), hcase⟩
      · rintro ⟨pre, m', post, hl, hclean, herr⟩
        cases pre with
        | nil =>
          simp only [List.nil_append] at hl
          injection hl with h1 h2
          subst h1
          rw [List.append_nil] at herr
          rw [List.append_nil] at hcase
          rw [hcase] at herr
          exact herr
        | cons y pre' =>
          simp only [List.cons_append] at hl
          injection hl with h1 h2
          subst h1
          have hy := hclean [] m pre' rfl
          rw [List.append_nil] at hcase
          rw [List.append_nil] at hy
          rw [hcase] at hy
          cases hy
    | none =>
      rw [hm, hcase]
      have hseen' : ∀ v, v ∈ (m.version :: seen) ↔ v ∈ (done ++ [m]).map (·.version) := by
        intro v
        simp only [List.mem_cons, List.map_append, List.mem_append, List.map_cons,
          List.map_nil, List.mem_singleton, hseen v]
        tauto
      rw [ih (done ++ [m]) (m.version :: seen) hseen']
      constructor
      · rintro ⟨pre', m', post', hl, hclean', herr'⟩
        refine ⟨m :: pre', m', post', by rw [List.cons_append, hl], ?_, ?_⟩
        · rintro p₁ x p₂ hp
          cases p₁ with
          | nil =>
            simp only [List.nil_append] at hp
            injection hp with h1 h2
            subst h1
            rw [List.append_nil]
            rw [List.append_nil] at hcase
            exact hcase
          | cons z p₁' =>
            simp only [List.cons_append] at hp
            injection hp with h1 h2
            subst h1
            have := hclean' p₁' x p₂ h2
            rw [show done ++ (m :: p₁') = (done ++ [m]) ++ p₁' by simp] at *
            exact this
        · rw [show done ++ (m :: pre') = (done ++ [m]) ++ pre' by simp]
          exact herr'
      · rintro ⟨pre, m', post, hl, hclean, herr⟩
        cases pre with
        | nil =>
          simp only [List.nil_append] at hl
          injection hl with h1 h2
          subst h1
          rw [List.append_nil] at herr
          rw [List.append_nil] at hcase
          rw [hcase] at herr
          cases herr
        | cons y pre' =>
          simp only [List.cons_append] at hl
          injection hl with h1 h2
          subst h1
          refine ⟨pre', m', post, h2, ?_, ?_⟩
          · rintro p₁ x p₂ hp
            have := hclean (m :: p₁) x p₂ (by rw [List.cons_append, hp])
            rw [show done ++ (m :: p₁) = (done ++ [m]) ++ p₁ by simp] at this
            exact this
          · rw [show (done ++ [m]) ++ pre' = done ++ (m :: pre') by simp]
            exact herr

lemma validateLoop_none_facts :
    ∀ (l : List Migration) (seen : List Int), validateLoop l seen = none →
      (∀ m ∈ l, 0 < m.version ∧ m.name ≠ "" ∧ m.upNil = false) ∧
      (l.map (·.version)).Nodup ∧
      (∀ v ∈ l.map (·.version), v ∉ seen) := by
  intro l
  induction l with
  | nil =>
    intro seen _
    simp
  | cons m rest ih =>
    intro seen h
    unfold validateLoop at h
    split_ifs at h with h1 h2 h3 h4
    obtain ⟨hall, hnodup, hnotin⟩ := ih _ h
    refine ⟨?_, ?_, ?_⟩
    · intro x hx
      rcases List.mem_cons.mp hx with rfl | hx'
      · exact ⟨by omega, h2, by simpa using h3⟩
      · exact hall x hx'
    · simp only [List.map_cons, List.nodup_cons]
      exact ⟨fun hin => (hnotin _ hin) (List.mem_cons_self _ _), hnodup⟩
    · intro v hv hvseen
      simp only [List.map_cons, List.mem_cons] at hv
      rcases hv with rfl | hv'
      · exact h4 hvseen
      · exact (hnotin v hv') (List.mem_cons_of_mem _ hvseen)

lemma validateAndSort_error_iff (l : List Migration) (e : ValidationError) :
    ValidateAndSort l = .error e ↔ validateLoop l [] = some e := by
  unfold ValidateAndSort
  by_cases hl : l.isEmpty
  · have : l = [] := by
      cases l with
      | nil => rfl
      | cons x xs => simp at hl
    subst this
    simp [validateLoop]
  · rw [if_neg hl]
    cases hcase : validateLoop l [] with
    | some e' => simp [hcase]
    | none => simp [hcase]

/-- C5: `ValidateAndSort` errs exactly when some migration commits the first
violation — detected per migration in input order, checking version ≤ 0, then
empty name, then missing apply function, then duplicate version — returning
precisely that migration's violation; on success it returns a permutation of
the input that is sorted strictly ascending by version, all of whose entries
are well-formed. -/
theorem c5_validateAndSort_first_error (l : List Migration) :
    (∀ e, ValidateAndSort l = .error e ↔
      ∃ pre m post, l = pre ++ m :: post ∧
        (∀ p₁ x p₂, pre = p₁ ++ x :: p₂ → migError p₁ x = none) ∧
        migError pre m = some e)
  ∧ (∀ s, ValidateAndSort l = .ok s →
      s.Perm l ∧ List.Pairwise (fun a b => a.version < b.version) s ∧
      (∀ m ∈ s, 0 < m.version ∧ m.name ≠ "" ∧ m.upNil = false)) := by
  constructor
  · intro e
    exact (validateAndSort_error_iff l e).trans
      (validateLoop_some_iff e l [] [] (by simp))
  · intro s hs
    unfold ValidateAndSort at hs
    by_cases hl : l.isEmpty
    · rw [if_pos hl] at hs
      injection hs with hs
      subst hs
      exact ⟨by
        have : l = [] := by
          cases l with
          | nil => rfl
          | cons x xs => simp at hl
        subst this
        exact List.Perm.refl _, by simp, by simp⟩
    · rw [if_neg hl] at hs
      cases hcase : validateLoop l [] with
      | some e' => rw [hcase] at hs; cases hs
      | none =>
        rw [hcase] at hs
        injection hs with hs
        subst hs
        obtain ⟨hall, hnodup, -⟩ := validateLoop_none_facts l [] hcase
        have hperm : (sortByVersion l).Perm l := List.perm_insertionSort byVersion l
        have hsorted : List.Pairwise byVersion (sortByVersion l) :=
          List.sorted_insertionSort byVersion l
        have hnodupS : ((sortByVersion l).map (·.version)).Nodup :=
          ((hperm.map (·.version)).nodup_iff).mpr hnodup
        have hne : List.Pairwise (fun a b : Migration => a.version ≠ b.version)
            (sortByVersion l) := List.pairwise_map.mp hnodupS
        refine ⟨hperm, ?_, fun m hm => hall m (hperm.subset hm)⟩
        exact (hsorted.and hne).imp (fun h => lt_of_le_of_ne h.1 h.2)

theorem c5_validateAndSort_first_error_witness :
    (∃ pre m post,
      ([⟨1, "a", false⟩, ⟨1, "b", false⟩] : List Migration) = pre ++ m :: post ∧
      (∀ p₁ x p₂, pre = p₁ ++ x :: p₂ → migError p₁ x = none) ∧
      migError pre m = some (.duplicateVersion 1))
  ∧ ([⟨1, "a", false⟩, ⟨3, "c", false⟩] : List Migration).Perm
      [⟨3, "c", false⟩, ⟨1, "a", false⟩]
  ∧ List.Pairwise (fun a b : Migration => a.version < b.version)
      [⟨1, "a", false⟩, ⟨3, "c", false⟩] := by
  refine ⟨((c5_validateAndSort_first_error _).1 _).mp (by decide), ?_, ?_⟩
  · exact ((c5_validateAndSort_first_error
      [⟨3, "c", false⟩, ⟨1, "a", false⟩]).2 _ (by decide)).1
  · exact ((c5_validateAndSort_first_error
      [⟨3, "c", false⟩, ⟨1, "a", false⟩]).2 _ (by decide)).2.1

/-! ## C4: the migration loop of the leader run -/

/-- Version carried by a migration-loop event (renewal events, which the
tick-free loop never emits, are mapped to 0). -/
def evVersion : Ev → Int
  | .check v => v
  | .apply v => v
  | .insert v => v
  | .renewOk => 0
  | .renewFail _ => 0

/-- Specification-side classifier of one migration-loop iteration: the error
with which it aborts the loop, if any — an `isApplied` read error, an apply
error, or a non-duplicate-key record-insert error.  A skipped iteration and a
duplicate-key insert error do not abort. -/
def stepAborts (env : MigEnv) : Option Err :=
  match env.isApplied with
  | .error e => some e
  | .ok true => none
  | .ok false =>
    match env.applyRes with
    | some e => some e
    | none =>
      match env.insertRes with
      | some e => if IsMongoDuplicateKeyError (some e) then none else some e
      | none => none

lemma migrationLoop_cons_snd (mig : Migration) (env : MigEnv)
    (rest : List (Migration × MigEnv)) :
    (migrationLoop ((mig, env) :: rest)).2 =
      match stepAborts env with
      | some e => some e
      | none => (migrationLoop rest).2 := by
  obtain ⟨ia, ar, ir⟩ := env
  cases ia with
  | error e => rfl
  | ok b =>
    cases b with
    | true => rfl
    | false =>
      cases ar with
      | some e => rfl
      | none =>
        cases ir with
        | none => rfl
        | some e =>
          by_cases h : IsMongoDuplicateKeyError (some e) = true
          · simp [migrationLoop, stepAborts, h]
          · simp only [Bool.not_eq_true] at h
            simp [migrationLoop, stepAborts, h]

lemma migrationLoop_ev_origin :
    ∀ (steps : List (Migration × MigEnv)) (ev : Ev),
      ev ∈ (migrationLoop steps).1 → ∃ s ∈ steps, evVersion ev = s.1.version := by
  intro steps
  induction steps with
  | nil =>
    intro ev h
    simp [migrationLoop] at h
  | cons p rest ih =>
    obtain ⟨mig, ⟨ia, ar, ir⟩⟩ := p
    intro ev h
    cases ia with
    | error e =>
      simp only [migrationLoop, List.mem_cons, List.not_mem_nil, or_false] at h
      subst h
      exact ⟨_, List.mem_cons_self _ _, rfl⟩
    | ok b =>
      cases b with
      | true =>
        simp only [migrationLoop, List.mem_cons] at h
        rcases h with rfl | h
        · exact ⟨_, List.mem_cons_self _ _, rfl⟩
        · obtain ⟨s, hs, hw⟩ := ih ev h
          exact ⟨s, List.mem_cons_of_mem _ hs, hw⟩
      | false =>
        cases ar with
        | some e =>
          simp only [migrationLoop, List.mem_cons, List.not_mem_nil, or_false] at h
          rcases h with rfl | rfl <;> exact ⟨_, List.mem_cons_self _ _, rfl⟩
        | none =>
          cases ir with
          | none =>
            simp only [migrationLoop, List.mem_cons] at h
            rcases h with rfl | rfl | rfl | h
            · exact ⟨_, List.mem_cons_self _ _, rfl⟩
            · exact ⟨_, List.mem_cons_self _ _, rfl⟩
            · exact ⟨_, List.mem_cons_self _ _, rfl⟩
            · obtain ⟨s, hs, hw⟩ := ih ev h
              exact ⟨s, List.mem_cons_of_mem _ hs, hw⟩
          | some e =>
            by_cases hd : IsMongoDuplicateKeyError (some e) = true
            · simp only [migrationLoop, hd, if_true, List.mem_cons] at h
              rcases h with rfl | rfl | rfl | h
              · exact ⟨_, List.mem_cons_self _ _, rfl⟩
              · exact ⟨_, List.mem_cons_self _ _, rfl⟩
              · exact ⟨_, List.mem_cons_self _ _, rfl⟩
              · obtain ⟨s, hs, hw⟩ := ih ev h
                exact ⟨s, List.mem_cons_of_mem _ hs, hw⟩
            · simp only [Bool.not_eq_true] at hd
              simp only [migrationLoop, hd, Bool.false_eq_true, if_false, List.mem_cons,
                List.not_mem_nil, or_false] at h
              rcases h with rfl | rfl | rfl <;> exact ⟨_, List.mem_cons_self _ _, rfl⟩

lemma migrationLoop_order :
    ∀ steps : List (Migration × MigEnv),
      List.Pairwise (fun a b : Migration × MigEnv => a.1.version < b.1.version) steps →
      List.Pairwise (· ≤ ·) ((migrationLoop steps).1.map evVersion) := by
  intro steps
  induction steps with
  | nil =>
    intro _
    simp [migrationLoop]
  | cons p rest ih =>
    obtain ⟨mig, ⟨ia, ar, ir⟩⟩ := p
    intro hp
    have hhead : ∀ b ∈ rest, mig.version < b.1.version := (List.pairwise_cons.mp hp).1
    have hrest := ih (List.pairwise_cons.mp hp).2
    have hcross : ∀ w ∈ (migrationLoop rest).1.map evVersion, mig.version ≤ w := by
      intro w hw
      rw [List.mem_map] at hw
      obtain ⟨ev, hev, rfl⟩ := hw
      obtain ⟨s, hs, hw'⟩ := migrationLoop_ev_origin rest ev hev
      rw [hw']
      exact le_of_lt (hhead s hs)
    cases ia with
    | error e => simp [migrationLoop, evVersion]
    | ok b =>
      cases b with
      | true =>
        simp only [migrationLoop, List.map_cons, evVersion]
        exact List.pairwise_cons.mpr ⟨hcross, hrest⟩
      | false =>
        cases ar with
        | some e => simp [migrationLoop, evVersion]
        | none =>
          cases ir with
          | none =>
            simp only [migrationLoop, List.map_cons, evVersion]
            refine List.pairwise_cons.mpr ⟨?_, List.pairwise_cons.mpr ⟨?_,
              List.pairwise_cons.mpr ⟨hcross, hrest⟩⟩⟩
            · intro w hw
              simp only [List.mem_cons] at hw
              rcases hw with rfl | rfl | hw
              · exact le_refl _
              · exact le_refl _
              · exact hcross w hw
            · intro w hw
              simp only [List.mem_cons] at hw
              rcases hw with rfl | hw
              · exact le_refl _
              · exact hcross w hw
          | some e =>
            by_cases hd : IsMongoDuplicateKeyError (some e) = true
            · simp only [migrationLoop, hd, if_true, List.map_cons, evVersion]
              refine List.pairwise_cons.mpr ⟨?_, List.pairwise_cons.mpr ⟨?_,
                List.pairwise_cons.mpr ⟨hcross, hrest⟩⟩⟩
              · intro w hw
                simp only [List.mem_cons] at hw
                rcases hw with rfl | rfl | hw
                · exact le_refl _
                · exact le_refl _
                · exact hcross w hw
              · intro w hw
                simp only [List.mem_cons] at hw
                rcases hw with rfl | hw
                · exact le_refl _
                · exact hcross w hw
            · simp only [Bool.not_eq_true] at hd
              simp [migrationLoop, evVersion, hd]

lemma migrationLoop_apply_origin :
    ∀ (steps : List (Migration × MigEnv)) (w : Int),
      Ev.apply w ∈ (migrationLoop steps).1 →
      ∃ s ∈ steps, s.1.version = w ∧ s.2.isApplied = .ok false := by
  intro steps
  induction steps with
  | nil =>
    intro w h
    simp [migrationLoop] at h
  | cons p rest ih =>
    obtain ⟨mig, ⟨ia, ar, ir⟩⟩ := p
    intro w h
    cases ia with
    | error e => simp [migrationLoop] at h
    | ok b =>
      cases b with
      | true =>
        simp only [migrationLoop, List.mem_cons] at h
        rcases h with h | h
        · cases h
        · obtain ⟨s, hs, hw, hfalse⟩ := ih w h
          exact ⟨s, List.mem_cons_of_mem _ hs, hw, hfalse⟩
      | false =>
        cases ar with
        | some e =>
          simp only [migrationLoop, List.mem_cons] at h
          rcases h with h | h | h
          · cases h
          · cases h; exact ⟨_, List.mem_cons_self _ _, rfl, rfl⟩
          · simp at h
        | none =>
          cases ir with
          | none =>
            simp only [migrationLoop, List.mem_cons] at h
            rcases h with h | h | h | h
            · cases h
            · cases h; exact ⟨_, List.mem_cons_self _ _, rfl, rfl⟩
            · cases h
            · obtain ⟨s, hs, hw, hfalse⟩ := ih w h
              exact ⟨s, List.mem_cons_of_mem _ hs, hw, hfalse⟩
          | some e =>
            by_cases hd : IsMongoDuplicateKeyError (some e) = true
            · simp only [migrationLoop, hd, if_true, List.mem_cons] at h
              rcases h with h | h | h | h
              · cases h
              · cases h; exact ⟨_, List.mem_cons_self _ _, rfl, rfl⟩
              · cases h
              · obtain ⟨s, hs, hw, hfalse⟩ := ih w h
                exact ⟨s, List.mem_cons_of_mem _ hs, hw, hfalse⟩
            · simp only [Bool.not_eq_true] at hd
              simp only [migrationLoop, hd, Bool.false_eq_true, if_false, List.mem_cons] at h
              rcases h with h | h | h
              · cases h
              · cases h; exact ⟨_, List.mem_cons_self _ _, rfl, rfl⟩
              · simp at h

lemma migrationLoop_insert_adjacent :
    ∀ (steps : List (Migration × MigEnv)) (v : Int),
      Ev.insert v ∈ (migrationLoop steps).1 →
      ∃ l₁ l₂, (migrationLoop steps).1 = l₁ ++ Ev.apply v :: Ev.insert v :: l₂ := by
  intro steps
  induction steps with
  | nil =>
    intro v h
    simp [migrationLoop] at h
  | cons p rest ih =>
    obtain ⟨mig, ⟨ia, ar, ir⟩⟩ := p
    intro v h
    cases ia with
    | error e =>
      simp only [migrationLoop, List.mem_cons, List.not_mem_nil, or_false] at h
      cases h
    | ok b =>
      cases b with
      | true =>
        simp only [migrationLoop, List.mem_cons] at h
        rcases h with h | h
        · cases h
        · obtain ⟨l₁, l₂, hl⟩ := ih v h
          exact ⟨.check mig.version :: l₁, l₂, by simp [migrationLoop, hl]⟩
      | false =>
        cases ar with
        | some e =>
          simp only [migrationLoop, List.mem_cons, List.not_mem_nil, or_false] at h
          rcases h with h | h <;> cases h
        | none =>
          cases ir with
          | none =>
            simp only [migrationLoop, List.mem_cons] at h
            rcases h with h | h | h | h
            · cases h
            · cases h
            · cases h
              exact ⟨[.check mig.version], (migrationLoop rest).1, by simp [migrationLoop]⟩
            · obtain ⟨l₁, l₂, hl⟩ := ih v h
              exact ⟨.check mig.version :: .apply mig.version :: .insert mig.version :: l₁,
                l₂, by simp [migrationLoop, hl]⟩
          | some e =>
            by_cases hd : IsMongoDuplicateKeyError (some e) = true
            · simp only [migrationLoop, hd, if_true, List.mem_cons] at h
              rcases h with h | h | h | h
              · cases h
              · cases h
              · cases h
                exact ⟨[.check mig.version], (migrationLoop rest).1, by simp [migrationLoop, hd]⟩
              · obtain ⟨l₁, l₂, hl⟩ := ih v h
                exact ⟨.check mig.version :: .apply mig.version :: .insert mig.version :: l₁,
                  l₂, by simp [migrationLoop, hd, hl]⟩
            · simp only [Bool.not_eq_true] at hd
              simp only [migrationLoop, hd, Bool.false_eq_true, if_false, List.mem_cons,
                List.not_mem_nil, or_false] at h
              rcases h with h | h | h
              · cases h
              · cases h
              · cases h
                exact ⟨[.check mig.version], [],
                  by simp [migrationLoop, hd, Bool.false_eq_true]⟩

lemma migrationLoop_none_all :
    ∀ steps : List (Migration × MigEnv), (migrationLoop steps).2 = none →
      ∀ s ∈ steps, s.2.isApplied = .ok false →
        Ev.apply s.1.version ∈ (migrationLoop steps).1 ∧
        Ev.insert s.1.version ∈ (migrationLoop steps).1 := by
  intro steps
  induction steps with
  | nil =>
    intro _ s hs
    cases hs
  | cons p rest ih =>
    obtain ⟨mig, ⟨ia, ar, ir⟩⟩ := p
    intro hnone s hs hfalse
    cases ia with
    | error e => simp [migrationLoop] at hnone
    | ok b =>
      cases b with
      | true =>
        simp only [migrationLoop] at hnone ⊢
        rcases List.mem_cons.mp hs with rfl | hs'
        · cases hfalse
        · obtain ⟨h1, h2⟩ := ih hnone s hs' hfalse
          exact ⟨List.mem_cons_of_mem _ h1, List.mem_cons_of_mem _ h2⟩
      | false =>
        cases ar with
        | some e => simp [migrationLoop] at hnone
        | none =>
          cases ir with
          | none =>
            simp only [migrationLoop] at hnone ⊢
            rcases List.mem_cons.mp hs with rfl | hs'
            · exact ⟨by simp, by simp⟩
            · obtain ⟨h1, h2⟩ := ih hnone s hs' hfalse
              refine ⟨?_, ?_⟩
              · exact List.mem_cons_of_mem _ (List.mem_cons_of_mem _ (List.mem_cons_of_mem _ h1))
              · exact List.mem_cons_of_mem _ (List.mem_cons_of_mem _ (List.mem_cons_of_mem _ h2))
          | some e =>
            by_cases hd : IsMongoDuplicateKeyError (some e) = true
            · simp only [migrationLoop, hd, if_true] at hnone ⊢
              rcases List.mem_cons.mp hs with rfl | hs'
              · exact ⟨by simp, by simp⟩
              · obtain ⟨h1, h2⟩ := ih hnone s hs' hfalse
                refine ⟨?_, ?_⟩
                · exact List.mem_cons_of_mem _ (List.mem_cons_of_mem _ (List.mem_cons_of_mem _ h1))
                · exact List.mem_cons_of_mem _ (List.mem_cons_of_mem _ (List.mem_cons_of_mem _ h2))
            · simp only [Bool.not_eq_true] at hd
              simp [migrationLoop, hd, Bool.false_eq_true] at hnone

lemma migrationLoop_some_iff (e : Err) :
    ∀ steps : List (Migration × MigEnv),
      (migrationLoop steps).2 = some e ↔
      ∃ pre s post, steps = pre ++ s :: post ∧
        (∀ t ∈ pre, stepAborts t.2 = none) ∧ stepAborts s.2 = some e := by
  intro steps
  induction steps with
  | nil =>
    constructor
    · intro h
      simp [migrationLoop] at h
    · rintro ⟨pre, s, post, h, -, -⟩
      exact absurd h (by simp)
  | cons p rest ih =>
    obtain ⟨mig, env⟩ := p
    rw [migrationLoop_cons_snd]
    cases hstep : stepAborts env with
    | some e' =>
      constructor
      · intro h
        injection h with h
        subst h
        exact ⟨[], (mig, env), rest, rfl, by simp, hstep⟩
      · rintro ⟨pre, s, post, hl, hclean, herr⟩
        cases pre with
        | nil =>
          simp only [List.nil_append] at hl
          injection hl with h1 h2
          rw [← h1] at herr
          rw [hstep] at herr
          exact herr
        | cons y pre' =>
          simp only [List.cons_append] at hl
          injection hl with h1 h2
          have hy := hclean y (List.mem_cons_self _ _)
          rw [← h1] at hy
          rw [hstep] at hy
          cases hy
    | none =>
      rw [ih]
      constructor
      · rintro ⟨pre', s', post', hl, hclean', herr'⟩
        refine ⟨(mig, env) :: pre', s', post', by rw [List.cons_append, hl], ?_, herr'⟩
        rintro t ht
        rcases List.mem_cons.mp ht with rfl | ht'
        · exact hstep
        · exact hclean' t ht'
      · rintro ⟨pre, s, post, hl, hclean, herr⟩
        cases pre with
        | nil =>
          simp only [List.nil_append] at hl
          injection hl with h1 h2
          rw [← h1] at herr
          rw [hstep] at herr
          cases herr
        | cons y pre' =>
          simp only [List.cons_append] at hl
          injection hl with h1 h2
          exact ⟨pre', s, post, h2, fun t ht => hclean t (List.mem_cons_of_mem _ ht), herr⟩

/-- C4: within one leader run on a version-sorted list, the migration loop
produces its events in ascending version order; a migration whose
`isApplied` check reports true is skipped (its apply callback is never
invoked); every record insert immediately follows the corresponding apply;
when the loop completes, every non-skipped migration was both applied and
recorded; and the loop aborts with error `e` exactly when some iteration is
the first to abort — where an `isApplied` read error, an apply error, or a
non-duplicate-key insert error aborts, while a duplicate-key insert error is
treated as success. -/
theorem c4_leader_migration_order (steps : List (Migration × MigEnv)) :
    (List.Pairwise (fun a b : Migration × MigEnv => a.1.version < b.1.version) steps →
      List.Pairwise (· ≤ ·) ((migrationLoop steps).1.map evVersion))
  ∧ ((steps.map (fun s => s.1.version)).Nodup →
      ∀ s ∈ steps, s.2.isApplied = .ok true →
        Ev.apply s.1.version ∉ (migrationLoop steps).1)
  ∧ (∀ v, Ev.insert v ∈ (migrationLoop steps).1 →
      ∃ l₁ l₂, (migrationLoop steps).1 = l₁ ++ Ev.apply v :: Ev.insert v :: l₂)
  ∧ ((migrationLoop steps).2 = none →
      ∀ s ∈ steps, s.2.isApplied = .ok false →
        Ev.apply s.1.version ∈ (migrationLoop steps).1 ∧
        Ev.insert s.1.version ∈ (migrationLoop steps).1)
  ∧ (∀ e, (migrationLoop steps).2 = some e ↔
      ∃ pre s post, steps = pre ++ s :: post ∧
        (∀ t ∈ pre, stepAborts t.2 = none) ∧ stepAborts s.2 = some e) := by
  refine ⟨migrationLoop_order steps, ?_, migrationLoop_insert_adjacent steps,
    migrationLoop_none_all steps, fun e => migrationLoop_some_iff e steps⟩
  intro hnodup s hs htrue hmem
  obtain ⟨s', hs', hver, hfalse⟩ := migrationLoop_apply_origin steps _ hmem
  have heq : s' = s := List.inj_on_of_nodup_map hnodup hs' hs hver
  rw [heq] at hfalse
  rw [htrue] at hfalse
  cases hfalse

/-- Concrete leader-loop schedule: version 1 already recorded, version 2 hits
a duplicate-key race on its record insert, version 3 applies cleanly. -/
def c4Steps : List (Migration × MigEnv) :=
  [(⟨1, "init", false⟩, ⟨.ok true, none, none⟩),
   (⟨2, "idx", false⟩, ⟨.ok false, none, some (.writeException [11000] "E11000 dup")⟩),
   (⟨3, "fill", false⟩, ⟨.ok false, none, none⟩)]

theorem c4_leader_migration_order_witness :
    Ev.apply 1 ∉ (migrationLoop c4Steps).1
  ∧ (Ev.apply 3 ∈ (migrationLoop c4Steps).1 ∧ Ev.insert 3 ∈ (migrationLoop c4Steps).1)
  ∧ List.Pairwise (· ≤ ·) ((migrationLoop c4Steps).1.map evVersion) :=
  ⟨(c4_leader_migration_order c4Steps).2.1 (by decide)
     (⟨1, "init", false⟩, ⟨.ok true, none, none⟩) (by decide) (by decide),
   (c4_leader_migration_order c4Steps).2.2.2.1 (by decide)
     (⟨3, "fill", false⟩, ⟨.ok false, none, none⟩) (by decide) (by decide),
   (c4_leader_migration_order c4Steps).1 (by decide)⟩

/-! ## C1: renewal failure during the leader run -/

/-- Events of the sequential migration loop, as opposed to events of the
renewal goroutine. -/
def isMigEv : Ev → Bool
  | .check _ => true
  | .apply _ => true
  | .insert _ => true
  | .renewOk => false
  | .renewFail _ => false

lemma fireTicks_no_migEv :
    ∀ (rs : RenewState) (ticks : List (Option Err)),
      (fireTicks rs ticks).2.filter isMigEv = [] := by
  intro rs ticks
  induction ticks generalizing rs with
  | nil => cases rs <;> rfl
  | cons t ts ih =>
    cases rs with
    | stopped e => rfl
    | running =>
      cases t with
      | none => simp [fireTicks, isMigEv, ih]
      | some e => simp [fireTicks, isMigEv]

lemma leaderLoopT_project :
    ∀ (steps : List (List (Option Err) × Migration × MigEnv)) (rs : RenewState),
      (leaderLoopT rs steps).1.filter isMigEv =
        (migrationLoop (steps.map (fun s => s.2))).1 ∧
      (leaderLoopT rs steps).2.1 = (migrationLoop (steps.map (fun s => s.2))).2 := by
  intro steps
  induction steps with
  | nil =>
    intro rs
    exact ⟨rfl, rfl⟩
  | cons p rest ih =>
    obtain ⟨ticks, mig, ⟨ia, ar, ir⟩⟩ := p
    intro rs
    cases ia with
    | error e =>
      simp [leaderLoopT, migrationLoop, isMigEv, List.filter_append, fireTicks_no_migEv]
    | ok b =>
      cases b with
      | true =>
        simp [leaderLoopT, migrationLoop, isMigEv, List.filter_append,
          fireTicks_no_migEv, ih (fireTicks rs ticks).1]
      | false =>
        cases ar with
        | some e =>
          simp [leaderLoopT, migrationLoop, isMigEv, List.filter_append, fireTicks_no_migEv]
        | none =>
          cases ir with
          | none =>
            simp [leaderLoopT, migrationLoop, isMigEv, List.filter_append,
              fireTicks_no_migEv, ih (fireTicks rs ticks).1]
          | some e =>
            by_cases hd : IsMongoDuplicateKeyError (some e) = true
            · simp [leaderLoopT, migrationLoop, isMigEv, List.filter_append,
                fireTicks_no_migEv, ih (fireTicks rs ticks).1, hd]
            · simp only [Bool.not_eq_true] at hd
              simp [leaderLoopT, migrationLoop, isMigEv, List.filter_append,
                fireTicks_no_migEv, hd, Bool.false_eq_true]

/-- Renewal error used by the concrete C1 run. -/
def renewFailErr : Err := .other "migrations lock renew failed"

/-- One fresh migration, with a renewal failure scheduled before its
iteration. -/
def c1Steps : List (List (Option Err) × Migration × MigEnv) :=
  [([some renewFailErr], ⟨1, "init", false⟩, ⟨.ok false, none, none⟩)]

/-- The property asserted by the claim: after a failed renewal, no further
apply or record-insert event occurs. -/
def NoMigStepAfterRenewFail (evs : List Ev) : Prop :=
  ∀ i j e v, evs.get? i = some (Ev.renewFail e) →
    (evs.get? j = some (Ev.apply v) ∨ evs.get? j = some (Ev.insert v)) → j < i

/-- C1 counterexample: with a renewal failure scheduled before the only
migration runs, the leader run still checks, applies and records that
migration after the failed `Renew` — the renewal error does not cancel the
migration loop — even though it is returned as the terminal error. -/
theorem c1_renewal_cancel_counterexample :
    (runAsLeaderT c1Steps []).1 =
      [Ev.renewFail renewFailErr, Ev.check 1, Ev.apply 1, Ev.insert 1]
  ∧ (runAsLeaderT c1Steps []).2 = some renewFailErr
  ∧ ¬ NoMigStepAfterRenewFail (runAsLeaderT c1Steps []).1 := by
  refine ⟨rfl, rfl, ?_⟩
  intro h
  have h2 := h 0 2 renewFailErr 1 rfl (Or.inl rfl)
  omega

/-- C1 (amended): a `Renew` error stops the renewal goroutine (no further
`Renew` calls are made) and is surfaced as the leader run's terminal error
precisely when the migration loop itself completes without an error of its
own; a migration-loop error takes precedence as the terminal error; and the
migration loop's behaviour — its checks, applies and record inserts and its
own outcome — is entirely unaffected by the renewal schedule. -/
theorem c1_leader_renewal_amended (steps : List (List (Option Err) × Migration × MigEnv))
    (trailing : List (Option Err)) :
    (∀ e, (leaderLoopT .running steps).2.1 = some e →
      (runAsLeaderT steps trailing).2 = some e)
  ∧ (∀ e, (leaderLoopT .running steps).2.1 = none →
      (fireTicks (leaderLoopT .running steps).2.2 trailing).1 = .stopped e →
      (runAsLeaderT steps trailing).2 = some e)
  ∧ ((runAsLeaderT steps trailing).1.filter isMigEv =
      (migrationLoop (steps.map (fun s => s.2))).1
    ∧ (leaderLoopT .running steps).2.1 = (migrationLoop (steps.map (fun s => s.2))).2)
  ∧ (∀ e ticks, fireTicks (.stopped e) ticks = (.stopped e, [])) := by
  refine ⟨?_, ?_, ⟨?_, (leaderLoopT_project steps .running).2⟩, ?_⟩
  · intro e h
    simp [runAsLeaderT, h]
  · intro e h1 h2
    simp [runAsLeaderT, h1, h2]
  · cases hm : (leaderLoopT .running steps).2.1 with
    | some e =>
      simp only [runAsLeaderT, hm]
      exact (leaderLoopT_project steps .running).1
    | none =>
      simp only [runAsLeaderT, hm, List.filter_append]
      rw [fireTicks_no_migEv, List.append_nil]
      exact (leaderLoopT_project steps .running).1
  · intro e ticks
    cases ticks <;> rfl

theorem c1_leader_renewal_amended_witness :
    (runAsLeaderT c1Steps []).2 = some renewFailErr
  ∧ (runAsLeaderT c1Steps []).1.filter isMigEv = [Ev.check 1, Ev.apply 1, Ev.insert 1] :=
  ⟨(c1_leader_renewal_amended c1Steps []).2.1 renewFailErr rfl rfl,
   ((c1_leader_renewal_amended c1Steps []).2.2.1.1).trans rfl⟩

/-! ## C6: the follower wait/takeover loop -/

/-- Specification-side test: a `select` round of `waitForTarget` that keeps
the loop polling — a tick whose applied-version read errs, or one that has
not reached the target and whose `TryAcquire` errs or does not acquire. -/
def stepContinues (l : Locker) (target : Int) : WaitStep → Bool
  | .cancel _ => false
  | .tick t =>
    match t.applied with
    | .error _ => true
    | .ok a =>
      if a ≥ target then false
      else
        match TryAcquire l t.acq with
        | (_, some _) => true
        | (true, none) => false
        | (false, none) => true

/-- Specification-side value of an exiting `select` round: the loop's result
if this round is reached — the context's error on cancellation, success when
the applied version has reached the target, and the leader run's result on a
successful takeover. -/
def stepExit (l : Locker) (target : Int) (sorted : List Migration) :
    WaitStep → Option (Option Err)
  | .cancel e => some (some e)
  | .tick t =>
    match t.applied with
    | .error _ => none
    | .ok a =>
      if a ≥ target then some none
      else
        match TryAcquire l t.acq with
        | (_, some _) => none
        | (true, none) => some (runAsLeader sorted t.lenv).2
        | (false, none) => none

lemma waitForTarget_skip :
    ∀ (pre rest : List WaitStep) (l : Locker) (target : Int) (sorted : List Migration),
      (∀ t ∈ pre, stepContinues l target t = true) →
      waitForTarget l target sorted (pre ++ rest) = waitForTarget l target sorted rest := by
  intro pre
  induction pre with
  | nil =>
    intro rest l target sorted _
    rfl
  | cons s pre' ih =>
    intro rest l target sorted h
    have hs := h s (List.mem_cons_self _ _)
    have h' : ∀ t ∈ pre', stepContinues l target t = true :=
      fun t ht => h t (List.mem_cons_of_mem _ ht)
    cases s with
    | cancel e => simp [stepContinues] at hs
    | tick t =>
      rw [List.cons_append]
      cases ha : t.applied with
      | error e =>
        simp only [waitForTarget, ha]
        exact ih rest l target sorted h'
      | ok a =>
        by_cases hge : a ≥ target
        · simp [stepContinues, ha, hge] at hs
        · cases hacq : TryAcquire l t.acq with
          | mk b oe =>
            cases oe with
            | some e =>
              simp only [waitForTarget, ha, if_neg hge, hacq]
              exact ih rest l target sorted h'
            | none =>
              cases b with
              | true => simp [stepContinues, ha, hge, hacq] at hs
              | false =>
                simp only [waitForTarget, ha, if_neg hge, hacq]
                exact ih rest l target sorted h'

lemma waitForTarget_exit_head :
    ∀ (l : Locker) (target : Int) (sorted : List Migration) (s : WaitStep)
      (post : List WaitStep) (r : Option Err),
      stepExit l target sorted s = some r →
      waitForTarget l target sorted (s :: post) = some r := by
  intro l target sorted s post r h
  cases s with
  | cancel e =>
    simp only [stepExit, Option.some.injEq] at h
    simp [waitForTarget, h]
  | tick t =>
    cases ha : t.applied with
    | error e => simp [stepExit, ha] at h
    | ok a =>
      by_cases hge : a ≥ target
      · simp only [stepExit, ha, if_pos hge, Option.some.injEq] at h
        simp [waitForTarget, ha, hge, h]
      · cases hacq : TryAcquire l t.acq with
        | mk b oe =>
          cases oe with
          | some e => simp [stepExit, ha, hge, hacq] at h
          | none =>
            cases b with
            | false => simp [stepExit, ha, hge, hacq] at h
            | true =>
              simp only [stepExit, ha, if_neg hge, hacq, Option.some.injEq] at h
              simp [waitForTarget, ha, hge, hacq, h]

/-- C6: from any state of the poll loop (any prefix of rounds that keep it
polling), the next exiting round determines the result: cancellation returns
the context's error; a tick whose re-read applied version reaches the target
returns success immediately — without attempting `TryAcquire`, as the result
is the same for every acquisition environment — and a tick that acquires the
lock runs the leader execution and returns its result. -/
theorem c6_follower_wait (l : Locker) (target : Int) (sorted : List Migration)
    (pre post : List WaitStep)
    (hpre : ∀ t ∈ pre, stepContinues l target t = true) :
    (∀ (s : WaitStep) (r : Option Err), stepExit l target sorted s = some r →
      waitForTarget l target sorted (pre ++ s :: post) = some r)
  ∧ (∀ e, waitForTarget l target sorted (pre ++ .cancel e :: post) = some (some e))
  ∧ (∀ (t : TickEnv) (a : Int), t.applied = .ok a → a ≥ target →
      waitForTarget l target sorted (pre ++ .tick t :: post) = some none)
  ∧ (∀ (t : TickEnv) (a : Int), t.applied = .ok a → a < target →
      TryAcquire l t.acq = (true, none) →
      waitForTarget l target sorted (pre ++ .tick t :: post) =
        some ((runAsLeader sorted t.lenv).2))
  ∧ (∀ (t : TickEnv) (a : Int) (acq2 : TryAcquireEnv), t.applied = .ok a → a ≥ target →
      waitForTarget l target sorted (pre ++ .tick { t with acq := acq2 } :: post) =
        some none) := by
  have hskip : ∀ rest, waitForTarget l target sorted (pre ++ rest) =
      waitForTarget l target sorted rest :=
    fun rest => waitForTarget_skip pre rest l target sorted hpre
  refine ⟨?_, ?_, ?_, ?_, ?_⟩
  · intro s r h
    rw [hskip]
    exact waitForTarget_exit_head l target sorted s post r h
  · intro e
    rw [hskip]
    exact waitForTarget_exit_head l target sorted _ post _ rfl
  · intro t a ha hge
    rw [hskip]
    exact waitForTarget_exit_head l target sorted _ post _ (by simp [stepExit, ha, hge])
  · intro t a ha hlt hacq
    rw [hskip]
    exact waitForTarget_exit_head l target sorted _ post _
      (by simp [stepExit, ha, not_le.mpr hlt, hacq])
  · intro t a acq2 ha hge
    rw [hskip]
    exact waitForTarget_exit_head l target sorted _ post _ (by simp [stepExit, ha, hge])

/-- Leader environment whose migrations are all already recorded. -/
def c6Lenv : LeaderEnv := ⟨fun _ => [], fun _ => ⟨.ok true, none, none⟩, []⟩

/-- Acquisition environment in which another owner holds the lock. -/
def c6AcqNo : TryAcquireEnv := ⟨.doc ⟨"userservice:migrations", "other-host", 99, 50⟩, .ok⟩

/-- Two polling rounds: a failed applied-version read, then a version still
below target with the lock held elsewhere. -/
def c6Pre : List WaitStep :=
  [.tick ⟨.error (.other "read timeout"), c6AcqNo, c6Lenv⟩,
   .tick ⟨.ok 0, c6AcqNo, c6Lenv⟩]

theorem c6_follower_wait_witness :
    waitForTarget ⟨"userservice:migrations", "host-1", 30⟩ 2 []
      (c6Pre ++ .cancel (.other "context canceled") :: []) =
      some (some (.other "context canceled"))
  ∧ waitForTarget ⟨"userservice:migrations", "host-1", 30⟩ 2 []
      (c6Pre ++ .tick ⟨.ok 2, c6AcqNo, c6Lenv⟩ :: []) = some none :=
  ⟨(c6_follower_wait ⟨"userservice:migrations", "host-1", 30⟩ 2 [] c6Pre []
      (by decide)).2.1 _,
   (c6_follower_wait ⟨"userservice:migrations", "host-1", 30⟩ 2 [] c6Pre []
      (by decide)).2.2.1 ⟨.ok 2, c6AcqNo, c6Lenv⟩ 2 rfl (by decide)⟩

/-! ## C2 and C9: the Run propagation policy and the readiness invariant -/

/-- Environment in which every database operation succeeds and there is
nothing to do. -/
def idleRunEnv : RunEnv :=
  ⟨none, .ok 0, ⟨.noDocuments, .ok⟩, ⟨fun _ => [], fun _ => ⟨.ok true, none, none⟩, []⟩, []⟩

lemma run_state_cases (l : Locker) (cfg : ManagerConfig) (list : List Migration)
    (env : RunEnv) (st : ManagerState) (ret : Option Err)
    (h : Run l cfg NewManagerState list env = some (st, ret)) :
    (st = { ready := true, last := "" } ∧ ret = none) ∨
    (∃ e : Err, st = { ready := false, last := e.text } ∧
      ret = if cfg.FailFast then some e else none) ∨
    (st = NewManagerState ∧ ret = none) := by
  unfold Run at h
  split at h
  · rename_i ve heq
    simp only [failStep, setErr, Option.some.injEq, Prod.mk.injEq] at h
    exact Or.inr (Or.inl ⟨.validation ve, h.1.symm, h.2.symm⟩)
  · rename_i sorted heq
    split at h
    · simp only [markReady, setErr, Option.some.injEq, Prod.mk.injEq] at h
      exact Or.inl ⟨h.1.symm, h.2.symm⟩
    · split at h
      · rename_i e heq2
        simp only [failStep, setErr, Option.some.injEq, Prod.mk.injEq] at h
        exact Or.inr (Or.inl ⟨e, h.1.symm, h.2.symm⟩)
      · split at h
        · simp only [markReady, setErr, Option.some.injEq, Prod.mk.injEq] at h
          exact Or.inl ⟨h.1.symm, h.2.symm⟩
        · split at h
          · rename_i b e heq3
            simp only [failStep, setErr, Option.some.injEq, Prod.mk.injEq] at h
            exact Or.inr (Or.inl ⟨e, h.1.symm, h.2.symm⟩)
          · rename_i acquired heq3
            split at h
            · split at h
              · simp only [markReady, setErr, Option.some.injEq, Prod.mk.injEq] at h
                exact Or.inl ⟨h.1.symm, h.2.symm⟩
              · rename_i e heq4
                simp only [failStep, setErr, Option.some.injEq, Prod.mk.injEq] at h
                exact Or.inr (Or.inl ⟨e, h.1.symm, h.2.symm⟩)
            · split at h
              · simp only [Option.some.injEq, Prod.mk.injEq] at h
                exact Or.inr (Or.inr ⟨h.1.symm, h.2.symm⟩)
              · split at h
                · cases h
                · rename_i e heq5
                  simp only [failStep, setErr, Option.some.injEq, Prod.mk.injEq] at h
                  exact Or.inr (Or.inl ⟨e, h.1.symm, h.2.symm⟩)
                · simp only [markReady, setErr, Option.some.injEq, Prod.mk.injEq] at h
                  exact Or.inl ⟨h.1.symm, h.2.symm⟩

/-- C2: every failing step of `Run` — validation, index creation, lock
acquisition, leader execution, follower wait — stores that error's text as
the Manager's last error and leaves it not ready, returning the error exactly
when `FailFast` is configured and nil otherwise; and every completed `Run`
either succeeds, fails in this recorded way, or returns nil with the state
untouched. -/
theorem c2_run_error_propagation (l : Locker) (cfg : ManagerConfig) (list : List Migration)
    (env : RunEnv) :
    (∀ ve, ValidateAndSort list = .error ve →
      Run l cfg NewManagerState list env =
        some ({ ready := false, last := (Err.validation ve).text },
          if cfg.FailFast then some (.validation ve) else none))
  ∧ (∀ sorted e, ValidateAndSort list = .ok sorted → TargetVersion sorted ≠ 0 →
      env.ensure = some e →
      Run l cfg NewManagerState list env =
        some ({ ready := false, last := e.text }, if cfg.FailFast then some e else none))
  ∧ (∀ sorted b e, ValidateAndSort list = .ok sorted → TargetVersion sorted ≠ 0 →
      env.ensure = none → (∀ a, env.appliedV = .ok a → a < TargetVersion sorted) →
      TryAcquire l env.acq = (b, some e) →
      Run l cfg NewManagerState list env =
        some ({ ready := false, last := e.text }, if cfg.FailFast then some e else none))
  ∧ (∀ sorted e, ValidateAndSort list = .ok sorted → TargetVersion sorted ≠ 0 →
      env.ensure = none → (∀ a, env.appliedV = .ok a → a < TargetVersion sorted) →
      TryAcquire l env.acq = (true, none) → (runAsLeader sorted env.leader).2 = some e →
      Run l cfg NewManagerState list env =
        some ({ ready := false, last := e.text }, if cfg.FailFast then some e else none))
  ∧ (∀ sorted e, ValidateAndSort list = .ok sorted → TargetVersion sorted ≠ 0 →
      env.ensure = none → (∀ a, env.appliedV = .ok a → a < TargetVersion sorted) →
      TryAcquire l env.acq = (false, none) → cfg.WaitForLeader = true →
      waitForTarget l (TargetVersion sorted) sorted env.waitSteps = some (some e) →
      Run l cfg NewManagerState list env =
        some ({ ready := false, last := e.text }, if cfg.FailFast then some e else none))
  ∧ (∀ st ret, Run l cfg NewManagerState list env = some (st, ret) →
      ret = none ∨ (cfg.FailFast = true ∧ ∃ e, ret = some e ∧
        st = { ready := false, last := e.text })) := by
  refine ⟨?_, ?_, ?_, ?_, ?_, ?_⟩
  · intro ve hval
    simp [Run, hval, failStep, setErr, NewManagerState]
  · intro sorted e hval htgt hens
    simp [Run, hval, htgt, hens, failStep, setErr, NewManagerState]
  · intro sorted b e hval htgt hens hfast hacq
    have hf : (match env.appliedV with
        | .ok a => decide (a ≥ TargetVersion sorted)
        | .error _ => false) = false := by
      cases ha : env.appliedV with
      | error e' => rfl
      | ok a => exact decide_eq_false (not_le.mpr (hfast a ha))
    simp [Run, hval, htgt, hens, hf, hacq, failStep, setErr, NewManagerState]
  · intro sorted e hval htgt hens hfast hacq hleader
    have hf : (match env.appliedV with
        | .ok a => decide (a ≥ TargetVersion sorted)
        | .error _ => false) = false := by
      cases ha : env.appliedV with
      | error e' => rfl
      | ok a => exact decide_eq_false (not_le.mpr (hfast a ha))
    simp [Run, hval, htgt, hens, hf, hacq, hleader, failStep, setErr, NewManagerState]
  · intro sorted e hval htgt hens hfast hacq hwfl hwait
    have hf : (match env.appliedV with
        | .ok a => decide (a ≥ TargetVersion sorted)
        | .error _ => false) = false := by
      cases ha : env.appliedV with
      | error e' => rfl
      | ok a => exact decide_eq_false (not_le.mpr (hfast a ha))
    simp [Run, hval, htgt, hens, hf, hacq, hwfl, hwait, failStep, setErr, NewManagerState]
  · intro st ret h
    rcases run_state_cases l cfg list env st ret h with ⟨-, hret⟩ | ⟨e, hst, hret⟩ | ⟨-, hret⟩
    · exact Or.inl hret
    · by_cases hff : cfg.FailFast
      · refine Or.inr ⟨hff, e, ?_, hst⟩
        rw [hret, if_pos hff]
      · rw [hret, if_neg hff]
        exact Or.inl rfl
    · exact Or.inl hret

/-- State recorded after a failed validation of a version-0 migration. -/
def c2BadState : ManagerState :=
  { ready := false, last := (Err.validation (.nonPositiveVersion 0 "bad")).text }

theorem c2_run_error_propagation_witness :
    Run ⟨"userservice:migrations", "host-1", 30⟩ ⟨false, false⟩ NewManagerState
      [⟨0, "bad", false⟩] idleRunEnv = some (c2BadState, none)
  ∧ Run ⟨"userservice:migrations", "host-1", 30⟩ ⟨true, false⟩ NewManagerState
      [⟨0, "bad", false⟩] idleRunEnv =
      some (c2BadState, some (.validation (.nonPositiveVersion 0 "bad"))) :=
  ⟨(c2_run_error_propagation ⟨"userservice:migrations", "host-1", 30⟩ ⟨false, false⟩
      [⟨0, "bad", false⟩] idleRunEnv).1 (.nonPositiveVersion 0 "bad") (by decide),
   (c2_run_error_propagation ⟨"userservice:migrations", "host-1", 30⟩ ⟨true, false⟩
      [⟨0, "bad", false⟩] idleRunEnv).1 (.nonPositiveVersion 0 "bad") (by decide)⟩

/-- C9: at construction the Manager is not ready with an empty last error,
and after every completed `Run` beginning from that state, readiness implies
an empty last error (every transition to ready clears it). -/
theorem c9_ready_implies_no_error :
    NewManagerState.ready = false ∧ NewManagerState.last = ""
  ∧ ∀ (l : Locker) (cfg : ManagerConfig) (list : List Migration) (env : RunEnv)
      (st : ManagerState) (ret : Option Err),
      Run l cfg NewManagerState list env = some (st, ret) →
      Ready st = true → LastError st = "" := by
  refine ⟨rfl, rfl, ?_⟩
  intro l cfg list env st ret h hr
  rcases run_state_cases l cfg list env st ret h with ⟨hst, -⟩ | ⟨e, hst, -⟩ | ⟨hst, -⟩
  · rw [hst]
    rfl
  · rw [hst] at hr
    simp [Ready] at hr
  · rw [hst] at hr
    simp [Ready, NewManagerState] at hr

theorem c9_ready_implies_no_error_witness :
    LastError { ready := true, last := "" } = "" :=
  c9_ready_implies_no_error.2.2 ⟨"userservice:migrations", "host-1", 30⟩ ⟨false, false⟩
    [] idleRunEnv { ready := true, last := "" } none rfl rfl

end Migrator
